import Mathlib

/-!
Verification development for the lightwood GluonTS mixer excerpt.

Shallow embedding of `src/lightwood/mixer/gluonts.py` and
`src/lightwood/encoders/__init__.py`:

* pandas data frames become lists of typed rows carrying the frame index;
* `DataFrame.sort_index` becomes an insertion sort on the index;
* `DataFrame.drop_duplicates` becomes a first-occurrence deduplication over
  the column values (the index is not part of the duplicate key, exactly as
  in pandas);
* `resample(freq).sum()` becomes bucketing of the integer index by `freq`
  with per-bucket summation over the numeric columns, covering the whole
  `min index .. max index` span (empty buckets sum to zero), and
  `groupby(col).resample(freq).sum()` applies that per group with the groups
  enumerated in sorted order (pandas `groupby` sorts its keys);
* the external DeepAR estimator and its `predict` are black boxes: training
  is a deterministic packaging of its inputs and prediction is an arbitrary
  function parameter;
* fallible operations (subscripting `None`, `isin(None)`, predicting with no
  trained model) return `Except` errors.
-/

namespace Lightwood

/-- Time-series settings, the `ts_analysis['tss']` object: the order-by
column name and the (possibly empty) list of group-by column names. -/
structure TssSettings where
  order_by : String
  group_by : List String
deriving DecidableEq, Repr

/-- Static configuration of a `GluonTSMixer` instance as set by `__init__`:
target column, horizon, window, epoch budget, early-stop patience, the
time-series settings and the single `sample_freqs['__default']` frequency. -/
structure Config where
  target : String
  horizon : Nat
  window : Nat
  n_epochs : Nat
  early_stop_patience : Int
  tss : TssSettings
  freq : Nat
deriving DecidableEq, Repr

/-- The name `f'__mdb_original_{oby}'` of the original order-by column. -/
def obyCol (cfg : Config) : String := "__mdb_original_" ++ cfg.tss.order_by

/-- `keep_cols = [f'__mdb_original_{oby}', self.target] + gby`. -/
def keep_cols (cfg : Config) : List String :=
  [obyCol cfg, cfg.target] ++ cfg.tss.group_by

/-- A row of the sub-frame restricted to `keep_cols`: the frame index, the
original order-by value, the target value and (when grouping is configured)
the value of the first group-by column. -/
structure Row where
  idx : Nat
  oby : Int
  tgt : Int
  grp : Option String
deriving DecidableEq, Repr

/-- A row of a full encoded data frame: the `keep_cols` data plus arbitrary
further encoded covariate columns. -/
structure FullRow where
  idx : Nat
  oby : Int
  tgt : Int
  grp : String
  extras : List Int
deriving DecidableEq, Repr

/-- `df[keep_cols]`: project a full row onto the order-by, target and
group-by columns.  When no group-by column is configured the group column is
simply absent from the sub-frame. -/
def selectKeepCols (cfg : Config) (r : FullRow) : Row :=
  { idx := r.idx, oby := r.oby, tgt := r.tgt,
    grp := if cfg.tss.group_by.isEmpty then none else some r.grp }

/-- The tuple of column values of a row, the duplicate key of
`DataFrame.drop_duplicates` (which compares column values, not the index). -/
def rowVals (r : Row) : Int × Int × Option String := (r.oby, r.tgt, r.grp)

/-- Generic first-occurrence deduplication by a key, with an accumulator of
already seen keys.  `dedupBy key [] l` keeps the first row of every key
class, in order, exactly like pandas `drop_duplicates(keep='first')`. -/
def dedupBy {α β : Type} [DecidableEq β] (key : α → β) : List β → List α → List α
  | _, [] => []
  | seen, a :: as =>
    if key a ∈ seen then dedupBy key seen as
    else a :: dedupBy key (key a :: seen) as

/-- `DataFrame.drop_duplicates()` on the selected sub-frame: first-occurrence
deduplication by the column values (the index is ignored). -/
def drop_duplicates (l : List Row) : List Row := dedupBy rowVals [] l

/-- Insertion of a row into an index-sorted list (stable: a newly inserted
row goes in front of rows with the same index that were to its right). -/
def insertRow (r : Row) : List Row → List Row
  | [] => [r]
  | x :: xs => if r.idx ≤ x.idx then r :: x :: xs else x :: insertRow r xs

/-- `DataFrame.sort_index()`: sort the rows by their frame index. -/
def sort_index (l : List Row) : List Row := l.foldr insertRow []

/-- Minimum of a list of naturals, `none` on the empty list. -/
def natMin? : List Nat → Option Nat
  | [] => none
  | x :: xs => some (match natMin? xs with | none => x | some m => min x m)

/-- Maximum of a list of naturals, `none` on the empty list. -/
def natMax? : List Nat → Option Nat
  | [] => none
  | x :: xs => some (match natMax? xs with | none => x | some m => max x m)

/-- The resampling buckets of a frame: every index bucket from the bucket of
the smallest index to the bucket of the largest one (pandas `resample`
produces bins for the whole span, empty bins included). -/
def bucketList (freq : Nat) (l : List Row) : List Nat :=
  match natMin? (l.map Row.idx), natMax? (l.map Row.idx) with
  | some lo, some hi => (List.range (hi / freq + 1 - lo / freq)).map (fun k => lo / freq + k)
  | _, _ => []

/-- Sum of the order-by column over one resampling bucket. -/
def obySumAt (freq b : Nat) (l : List Row) : Int :=
  ((l.filter (fun r => r.idx / freq == b)).map Row.oby).sum

/-- Sum of the target column over one resampling bucket. -/
def tgtSumAt (freq b : Nat) (l : List Row) : Int :=
  ((l.filter (fun r => r.idx / freq == b)).map Row.tgt).sum

/-- `df.resample(freq).sum()`: one output row per bucket, each holding the
bucket label and the per-bucket sums of the numeric columns. -/
def resampleSum (freq : Nat) (l : List Row) : List (Nat × Int × Int) :=
  (bucketList freq l).map (fun b => (b, obySumAt freq b l, tgtSumAt freq b l))

/-- Insertion of a string into a sorted list of strings. -/
def insertStr (s : String) : List String → List String
  | [] => [s]
  | x :: xs => if s ≤ x then s :: x :: xs else x :: insertStr s xs

/-- Sort a list of strings. -/
def sortStrs (l : List String) : List String := l.foldr insertStr []

/-- The group keys of `df.groupby(by=gby[0])`: the distinct values of the
group column, in sorted order (pandas sorts group keys by default). -/
def groupVals (l : List Row) : List String :=
  sortStrs (dedupBy id [] (l.filterMap Row.grp))

/-- `df.groupby(by=gby[0]).resample(freq).sum().reset_index(level=[0])`:
for every group key in sorted order, resample that group's rows; each output
row carries the group value, the bucket and the two column sums. -/
def resampleGrouped (freq : Nat) (l : List Row) : List (String × Nat × Int × Int) :=
  (groupVals l).flatMap (fun g =>
    (resampleSum freq (l.filter (fun r => r.grp == some g))).map
      (fun bos => (g, bos.1, bos.2.1, bos.2.2)))

/-- The result of `PandasDataset.from_long_dataframe(df, target, item_id,
freq)`: the long frame's column names, the item-id (group) column, the
target column, the frequency and the resampled rows
`(group value, bucket, order-by sum, target sum)`. -/
structure PandasDatasetM where
  columns : List String
  item_id : String
  target : String
  freq : Nat
  rows : List (String × Nat × Int × Int)
deriving DecidableEq, Repr

/-- The trained DeepAR model, an external black box: we record exactly the
data `DeepAREstimator(freq=..., prediction_length=..., trainer=Trainer(
epochs=..., callbacks=[EarlyStop(patience=...)])).train(train_ds)` receives,
so two trainings coincide iff their inputs do. -/
structure ModelM where
  freq : Nat
  prediction_length : Nat
  epochs : Nat
  patience : Int
  trained_on : PandasDatasetM
deriving DecidableEq, Repr

/-- The mutable state of a `GluonTSMixer`: configuration, `prepared` flag,
the `hyperparam_search` attribute (absent until `partial_fit` assigns it),
the trained model slot and the `train_cache` slot. -/
structure MixerState where
  cfg : Config
  prepared : Bool
  hyperparam_search : Option Bool
  model : Option ModelM
  train_cache : Option (List Row)
deriving DecidableEq, Repr

/-- Runtime failures of the embedded code: subscripting a `None` cache,
subscripting a `None` `df` with `train=True`, `isin(None)`, and predicting
with no trained model. -/
inductive MkErr
  | noneCache
  | noneDf
  | groupsNone
  | noModel
deriving DecidableEq, Repr

/-- `df[gby[0]].isin(groups)` membership test for one row. -/
def grpIn (gs : List String) (r : Row) : Bool :=
  match r.grp with
  | some g => decide (g ∈ gs)
  | none => false

/-- The branch part of `_make_initial_ds`, everything before
`df.drop_duplicates()`: chooses/builds the working frame and updates the
`train_cache` slot.  `deepcopy` is a value copy, which is implicit in the
pure embedding.  Returns the working frame plus the updated mixer state. -/
def prep_frame (st : MixerState) (df : Option (List FullRow)) (train : Bool)
    (groups : Option (List String)) : Except MkErr (List Row × MixerState) :=
  if df.isNone && !train then
    match st.train_cache with
    | none => .error .noneCache
    | some cache =>
      if st.cfg.tss.group_by ≠ [] then
        match groups with
        | none => .error .groupsNone
        | some gs => .ok (cache.filter (grpIn gs), st)
      else .ok (cache, st)
  else
    match df with
    | none => .error .noneDf
    | some d =>
      let sub := d.map (selectKeepCols st.cfg)
      if train then .ok (sub, { st with train_cache := some sub })
      else
        match st.train_cache with
        | none => .error .noneCache
        | some c =>
          if st.cfg.tss.group_by ≠ [] then
            match groups with
            | none => .error .groupsNone
            | some gs => .ok (sort_index (c.filter (grpIn gs) ++ sub), st)
          else .ok (sort_index (c ++ sub), st)

/-- The tail of `_make_initial_ds` after the branch: `drop_duplicates`, the
grouped or ungrouped resampling, and the `PandasDataset` packaging.  In the
ungrouped path the constant column `'__default_group'` is appended after the
resampled columns, exactly as `df[gby] = '__default_group'` does. -/
def finish_ds (cfg : Config) (frame0 : List Row) : PandasDatasetM :=
  let frame := drop_duplicates frame0
  match cfg.tss.group_by with
  | g0 :: _ =>
    { columns := [g0, obyCol cfg, cfg.target], item_id := g0, target := cfg.target,
      freq := cfg.freq, rows := resampleGrouped cfg.freq frame }
  | [] =>
    { columns := [obyCol cfg, cfg.target, "__default_group"],
      item_id := "__default_group", target := cfg.target, freq := cfg.freq,
      rows := (resampleSum cfg.freq frame).map
        (fun bos => ("__default_group", bos.1, bos.2.1, bos.2.2)) }

/-- `GluonTSMixer._make_initial_ds(df, train, groups)`. -/
def make_initial_ds (st : MixerState) (df : Option (List FullRow)) (train : Bool)
    (groups : Option (List String)) : Except MkErr (PandasDatasetM × MixerState) :=
  (prep_frame st df train groups).map (fun fs => (finish_ds st.cfg fs.1, fs.2))

/-- The external `DeepAREstimator(...).train(train_ds)` call made by `fit`:
packages the estimator arguments `freq=train_ds.freq`,
`prediction_length=self.horizon`, `Trainer(epochs=self.n_epochs,
callbacks=[EarlyStop(patience=self.patience)])` and the training dataset. -/
def DeepAREstimator_train (cfg : Config) (train_ds : PandasDatasetM) : ModelM :=
  { freq := train_ds.freq, prediction_length := cfg.horizon, epochs := cfg.n_epochs,
    patience := cfg.early_stop_patience, trained_on := train_ds }

/-- `GluonTSMixer.fit(train_data, dev_data)`: concatenate the two encoded
datasets (`ConcatedEncodedDs` concatenates their data frames in order),
build the training dataset (which replaces the series cache) and train a
fresh estimator. -/
def GluonTSMixer.fit (st : MixerState) (train_data dev_data : List FullRow) :
    Except MkErr MixerState :=
  let cat := train_data ++ dev_data
  match make_initial_ds st (some cat) true none with
  | .error e => .error e
  | .ok (train_ds, st1) =>
    .ok { st1 with model := some (DeepAREstimator_train st.cfg train_ds) }

/-- Embedding of `GluonTSMixer.partial_fit(train_data, dev_data)` (the
Lean name is adapted because the Python name starts with a Lean keyword):
sets `hyperparam_search = False`, delegates to `fit` with the two arguments
swapped (`self.fit(dev_data, train_data)`), then sets `prepared = True`. -/
def GluonTSMixer.update_fit (st : MixerState) (train_data dev_data : List FullRow) :
    Except MkErr MixerState :=
  let st0 := { st with hyperparam_search := some false }
  match GluonTSMixer.fit st0 dev_data train_data with
  | .error e => .error e
  | .ok st1 => .ok { st1 with prepared := true }

/-- Python truthiness of the optional `fixed_confidence` float: `None` and
`0.0` are falsy. -/
def pyTruthy : Option ℚ → Bool
  | none => false
  | some c => c != 0

/-- `conf = args.fixed_confidence if args.fixed_confidence else 0.9`. -/
def confOf (fc : Option ℚ) : ℚ := if pyTruthy fc then fc.getD 0 else 0.9

/-- The `PredictionArguments` object as far as `__call__` reads it: the
optional fixed confidence level. -/
structure PredictionArguments where
  fixed_confidence : Option ℚ
deriving DecidableEq, Repr

/-- One probabilistic forecast returned by the external model: its mean
sequence and its quantile function. -/
structure Forecast where
  mean : List ℚ
  quantile : ℚ → List ℚ

/-- One row of the output frame `ydf`: the three forecast sequences, the
original frame index of the row, and the confidence level used. -/
structure OutRow where
  prediction : List ℚ
  lower : List ℚ
  upper : List ℚ
  index : Nat
  confidence : ℚ
deriving DecidableEq, Repr

/-- `df = ds.data_frame.iloc[:idx] if idx != 0 else None`: the provisional
history sub-table of loop iteration `idx`. -/
def histAt (rows : List FullRow) (idx : Nat) : Option (List FullRow) :=
  if idx ≠ 0 then some (rows.take idx) else none

/-- `groups = ds.data_frame[gby[0]].unique() if gby else None`: the distinct
group values of the input frame in first-occurrence order. -/
def groupsOf (st : MixerState) (rows : List FullRow) : Option (List String) :=
  if st.cfg.tss.group_by ≠ [] then some (dedupBy id [] (rows.map FullRow.grp))
  else none

/-- One iteration of the prediction loop of `__call__`: build the inference
dataset for the row's history, request one prediction from the trained
model, and extract the mean, the `1 - conf` quantile and the `conf`
quantile.  `predict` is the external model's predict function, a black-box
parameter. -/
def forecastRow (predict : ModelM → PandasDatasetM → Forecast) (st : MixerState)
    (rows : List FullRow) (groups : Option (List String)) (conf : ℚ)
    (idxr : Nat × FullRow) : Except MkErr OutRow :=
  match make_initial_ds st (histAt rows idxr.1) false groups with
  | .error e => .error e
  | .ok (input_ds, _) =>
    match st.model with
    | none => .error .noModel
    | some m =>
      let f := predict m input_ds
      .ok { prediction := f.mean, lower := f.quantile (1 - conf),
            upper := f.quantile conf, index := idxr.2.idx, confidence := conf }

/-- Error-propagating map over a list, the sequential `for idx in
range(length)` loop. -/
def mapE {α β : Type} (f : α → Except MkErr β) : List α → Except MkErr (List β)
  | [] => .ok []
  | a :: as =>
    match f a with
    | .error e => .error e
    | .ok b =>
      match mapE f as with
      | .error e => .error e
      | .ok bs => .ok (b :: bs)

/-- `GluonTSMixer.__call__(ds, args)`: compute the confidence level and the
requested groups, then run the per-row prediction loop over the enumerated
input rows, producing one output row per input row in input order. -/
def GluonTSMixer.call (predict : ModelM → PandasDatasetM → Forecast)
    (st : MixerState) (rows : List FullRow) (args : PredictionArguments) :
    Except MkErr (List OutRow) :=
  let conf := confOf args.fixed_confidence
  let groups := groupsOf st rows
  mapE (forecastRow predict st rows groups conf) rows.enum

/-- The `EarlyStop(TrainingHistory)` callback state: the effective patience,
the counter of consecutive worsening validation epochs, and the appended-to
validation loss history (maintained by the `TrainingHistory` parent). -/
structure EarlyStop where
  patience : Int
  counter : Int
  validation_loss_history : List ℚ
deriving DecidableEq, Repr

/-- `EarlyStop.__init__(patience)`: `self.patience = max(1, patience)`,
`self.counter = 0`, empty loss history. -/
def EarlyStop.init (patience : Int) : EarlyStop :=
  { patience := max 1 patience, counter := 0, validation_loss_history := [] }

/-- `EarlyStop.on_validation_epoch_end(...)`: the parent `TrainingHistory`
callback appends `epoch_loss` to `validation_loss_history`; then, if there
are at least two recorded losses, the counter is incremented when the last
loss strictly exceeds the one before it and reset to zero otherwise; the
returned boolean is `False` when `counter >= patience`, else `True`. -/
def EarlyStop.on_validation_epoch_end (s : EarlyStop) (epoch_loss : ℚ) :
    EarlyStop × Bool :=
  let hist := s.validation_loss_history ++ [epoch_loss]
  let counter :=
    if 1 < hist.length then
      if hist.getLast?.getD 0 > hist.dropLast.getLast?.getD 0 then s.counter + 1
      else 0
    else s.counter
  ({ s with validation_loss_history := hist, counter := counter },
   if counter ≥ s.patience then false else true)

/-- The `lightwood.encoders` registry module as a value: the
`export_optional_encoder` flag, whether the import-failure warning was
printed, and the encoder class names exposed under each category.  The
parameter `imports_ok` records whether the optional
`cesium_ts` / `audio` imports succeed; the `try/except` around them makes
the module load either way. -/
structure EncodersModule where
  export_optional_encoder : Bool
  warning_printed : Bool
  DateTime : List String
  Image : List String
  Numeric : List String
  Text : List String
  Categorical : List String
  TimeSeries : List String
  Audio : List String
deriving DecidableEq, Repr

/-- Loading `lightwood/encoders/__init__.py` with the optional heavy
dependencies available (`imports_ok = true`) or failing to import
(`imports_ok = false`). -/
def loadEncoders (imports_ok : Bool) : EncodersModule :=
  { export_optional_encoder := imports_ok
    warning_printed := !imports_ok
    DateTime := ["DatetimeEncoder"]
    Image := ["Img2VecEncoder", "NnAutoEncoder"]
    Numeric := ["NumericEncoder"]
    Text := ["InferSentEncoder", "RnnEncoder"]
    Categorical := ["OneHotEncoder", "CategoricalAutoEncoder"]
    TimeSeries := ["TsFreshTsEncoder"] ++ (if imports_ok then ["CesiumTsEncoder"] else [])
    Audio := if imports_ok then ["AmplitudeTsEncoder"] else [] }

instance {ε α : Type} [DecidableEq ε] [DecidableEq α] : DecidableEq (Except ε α) :=
  fun x y =>
    match x, y with
    | .ok a, .ok b => decidable_of_iff (a = b) (by simp)
    | .error a, .error b => decidable_of_iff (a = b) (by simp)
    | .ok _, .error _ => isFalse (by simp)
    | .error _, .ok _ => isFalse (by simp)

/-- The row-index ordering used by `sort_index`. -/
def idxLe (a b : Row) : Prop := a.idx ≤ b.idx

/-- Grouped witness configuration: one group-by column `g`. -/
def cfgG : Config :=
  { target := "t", horizon := 2, window := 3, n_epochs := 4,
    early_stop_patience := 3, tss := { order_by := "ob", group_by := ["g"] },
    freq := 2 }

/-- Grouped witness state with an empty cached frame. -/
def stG : MixerState :=
  { cfg := cfgG, prepared := false, hyperparam_search := none, model := none,
    train_cache := some [] }

/-- Ungrouped witness configuration: no group-by columns. -/
def cfgU : Config :=
  { target := "t", horizon := 2, window := 3, n_epochs := 4,
    early_stop_patience := 3, tss := { order_by := "ob", group_by := [] },
    freq := 2 }

/-- Ungrouped witness state with an empty cached frame. -/
def stU : MixerState :=
  { cfg := cfgU, prepared := false, hyperparam_search := none, model := none,
    train_cache := some [] }

/-- A sample full row for the witnesses. -/
def rW : FullRow := { idx := 4, oby := 7, tgt := 11, grp := "g", extras := [5] }

/-- The black-box predictor used by the witnesses. -/
def predW : ModelM → PandasDatasetM → Forecast :=
  fun _ _ => { mean := [1], quantile := fun q => [q] }

/-- Witness state with a trained model installed. -/
def stW7 : MixerState :=
  { stU with model := some (DeepAREstimator_train cfgU (finish_ds cfgU [])) }

/-- The claim's notion of duplicate rows: equality of the (order-by, target,
group) column values of the selected sub-frame; removing the duplicates
keeps the first occurrence of every value tuple. -/
def dedup_claim (cfg : Config) (d : List FullRow) : List FullRow :=
  dedupBy (fun r => rowVals (selectKeepCols cfg r)) [] d

/-- The amended notion of duplicate rows: equality of the (order-by, target,
group) column values and of the frame index, i.e. of the whole selected row;
removing the duplicates keeps the first occurrence. -/
def dedup_rows (cfg : Config) (d : List FullRow) : List FullRow :=
  dedupBy (selectKeepCols cfg) [] d

/-- Counterexample configuration: no grouping, target `t`, frequency 1. -/
def cfgC3 : Config :=
  { target := "t", horizon := 1, window := 1, n_epochs := 1,
    early_stop_patience := 3, tss := { order_by := "ob", group_by := [] },
    freq := 1 }

/-- Counterexample state: an empty Series Cache is present. -/
def stC3 : MixerState :=
  { cfg := cfgC3, prepared := false, hyperparam_search := none, model := none,
    train_cache := some [] }

/-- A row at frame index 5. -/
def rowC3a : FullRow := { idx := 5, oby := 0, tgt := 10, grp := "g", extras := [] }

/-- A row with the same (order-by, target, group) values at frame index 3. -/
def rowC3b : FullRow := { idx := 3, oby := 0, tgt := 10, grp := "g", extras := [] }


theorem insertRow_perm (r : Row) (l : List Row) : (insertRow r l).Perm (r :: l) := by
  induction l with
  | nil => simp [insertRow]
  | cons x xs ih =>
    by_cases h : r.idx ≤ x.idx
    · simp [insertRow, h]
    · simp only [insertRow, if_neg h]
      exact (ih.cons x).trans (List.Perm.swap r x xs)

theorem sort_index_perm (l : List Row) : (sort_index l).Perm l := by
  induction l with
  | nil => simp [sort_index]
  | cons x xs ih => exact (insertRow_perm x (sort_index xs)).trans (ih.cons x)

theorem mem_sort_index {r : Row} {l : List Row} : r ∈ sort_index l ↔ r ∈ l :=
  (sort_index_perm l).mem_iff

theorem insertRow_sorted {r : Row} {l : List Row} (h : l.Pairwise idxLe) :
    (insertRow r l).Pairwise idxLe := by
  induction l with
  | nil => simp [insertRow, idxLe]
  | cons x xs ih =>
    rcases List.pairwise_cons.mp h with ⟨hx, hxs⟩
    by_cases hr : r.idx ≤ x.idx
    · simp only [insertRow, if_pos hr]
      refine List.pairwise_cons.mpr ⟨?_, h⟩
      intro y hy
      rcases List.mem_cons.mp hy with rfl | hy
      · exact hr
      · exact le_trans hr (hx y hy)
    · simp only [insertRow, if_neg hr]
      refine List.pairwise_cons.mpr ⟨?_, ih hxs⟩
      intro y hy
      rw [(insertRow_perm r xs).mem_iff] at hy
      rcases List.mem_cons.mp hy with rfl | hy
      · exact le_of_not_le hr
      · exact hx y hy

theorem sort_index_sorted (l : List Row) : (sort_index l).Pairwise idxLe := by
  induction l with
  | nil => simp [sort_index]
  | cons x xs ih => exact insertRow_sorted ih

/-- C1: for every configured patience value, the Early-Stop Policy signals
continue (returns `True`) exactly while its counter of consecutive worsening
validation epochs, after the update, stays below the effective patience, and
signals stop (`False`) exactly once the counter reaches or exceeds it; after
each validation epoch the counter is incremented when the latest validation
loss strictly exceeds the immediately preceding one and reset to zero on any
non-worsening epoch (ties included); the effective patience threshold set by
the constructor is `max 1 patience`, hence at least `1` regardless of the
constructor argument. -/
theorem earlyStop_patience_policy (s : EarlyStop) (epoch_loss : ℚ) (p : Int) :
    ((s.on_validation_epoch_end epoch_loss).2 = true ↔
      (s.on_validation_epoch_end epoch_loss).1.counter < s.patience)
  ∧ ((s.on_validation_epoch_end epoch_loss).2 = false ↔
      s.patience ≤ (s.on_validation_epoch_end epoch_loss).1.counter)
  ∧ ((s.on_validation_epoch_end epoch_loss).1.counter =
      match s.validation_loss_history.getLast? with
      | none => s.counter
      | some prev => if prev < epoch_loss then s.counter + 1 else 0)
  ∧ ((s.on_validation_epoch_end epoch_loss).1.validation_loss_history =
      s.validation_loss_history ++ [epoch_loss])
  ∧ (EarlyStop.init p).patience = max 1 p
  ∧ 1 ≤ (EarlyStop.init p).patience := by
  have hcounter : (s.on_validation_epoch_end epoch_loss).1.counter =
      match s.validation_loss_history.getLast? with
      | none => s.counter
      | some prev => if prev < epoch_loss then s.counter + 1 else 0 := by
    simp only [EarlyStop.on_validation_epoch_end, List.getLast?_concat,
      List.dropLast_concat, List.length_append, List.length_cons, List.length_nil]
    cases hl : s.validation_loss_history with
    | nil => simp
    | cons a as =>
      have hne : a :: as ≠ [] := by simp
      have : (a :: as).getLast? = some ((a :: as).getLast hne) :=
        List.getLast?_eq_getLast (a :: as) hne
      simp only [this, List.length_cons, Option.getD_some, gt_iff_lt]
      have : 1 < as.length + 1 + 1 := by omega
      simp [this]
  refine ⟨?_, ?_, hcounter, ?_, rfl, by simp [EarlyStop.init]⟩
  · simp only [EarlyStop.on_validation_epoch_end]
    by_cases h : (s.on_validation_epoch_end epoch_loss).1.counter ≥ s.patience <;>
      simp only [EarlyStop.on_validation_epoch_end] at h <;> simp [h]
  · simp only [EarlyStop.on_validation_epoch_end]
    by_cases h : (s.on_validation_epoch_end epoch_loss).1.counter ≥ s.patience <;>
      simp only [EarlyStop.on_validation_epoch_end] at h <;> simp [h]
  · simp [EarlyStop.on_validation_epoch_end]

/-- C9: when the optional time-series/audio imports fail the registry still
loads (the embedding is total in the `imports_ok` flag), the availability
flag is `False`, the warning is printed, and exactly the two gated classes
(`CesiumTsEncoder` under `TimeSeries`, `AmplitudeTsEncoder` under `Audio`)
are omitted while every other encoder class, `TsFreshTsEncoder` included,
remains; when the imports succeed both gated classes are present. -/
theorem encoders_optional_registry (ok : Bool) :
    (loadEncoders false).export_optional_encoder = false
  ∧ (loadEncoders false).warning_printed = true
  ∧ (loadEncoders false).TimeSeries = ["TsFreshTsEncoder"]
  ∧ (loadEncoders false).Audio = []
  ∧ (loadEncoders true).export_optional_encoder = true
  ∧ (loadEncoders true).warning_printed = false
  ∧ (loadEncoders true).TimeSeries = ["TsFreshTsEncoder", "CesiumTsEncoder"]
  ∧ (loadEncoders true).Audio = ["AmplitudeTsEncoder"]
  ∧ (loadEncoders ok).DateTime = ["DatetimeEncoder"]
  ∧ (loadEncoders ok).Image = ["Img2VecEncoder", "NnAutoEncoder"]
  ∧ (loadEncoders ok).Numeric = ["NumericEncoder"]
  ∧ (loadEncoders ok).Text = ["InferSentEncoder", "RnnEncoder"]
  ∧ (loadEncoders ok).Categorical = ["OneHotEncoder", "CategoricalAutoEncoder"]
  ∧ "TsFreshTsEncoder" ∈ (loadEncoders ok).TimeSeries := by
  cases ok <;> simp [loadEncoders]

/-- C10: a falsy supplied fixed confidence (`0`) is ignored by `__call__`
and the default `0.9` is used, exactly as when no fixed confidence is
supplied: the Python truthiness test `args.fixed_confidence if
args.fixed_confidence else 0.9` treats `0.0` like `None`. -/
theorem falsy_confidence_default (predict : ModelM → PandasDatasetM → Forecast)
    (st : MixerState) (rows : List FullRow) :
    GluonTSMixer.call predict st rows { fixed_confidence := some 0 } =
      GluonTSMixer.call predict st rows { fixed_confidence := none }
  ∧ confOf (some 0) = 0.9
  ∧ confOf none = 0.9
  ∧ ∀ fc, pyTruthy fc = false → confOf fc = 0.9 := by
  refine ⟨?_, by simp [confOf, pyTruthy], rfl, ?_⟩
  · simp [GluonTSMixer.call, confOf, pyTruthy]
  · intro fc h
    simp [confOf, h]

/-- C6: a training call selects only the `keep_cols` columns of the input
table and stores that sub-table (a value copy: `deepcopy` has no observable
effect in the pure embedding) as the new Series Cache, replacing any prior
cache wholesale; the produced dataset and the new cache are the same for
every prior cache contents. -/
theorem train_cache_replaced_wholesale (st : MixerState) (d : List FullRow)
    (groups : Option (List String)) (cache₀ : Option (List Row)) :
    make_initial_ds st (some d) true groups =
      .ok (finish_ds st.cfg (d.map (selectKeepCols st.cfg)),
        { st with train_cache := some (d.map (selectKeepCols st.cfg)) })
  ∧ make_initial_ds { st with train_cache := cache₀ } (some d) true groups =
      .ok (finish_ds st.cfg (d.map (selectKeepCols st.cfg)),
        { st with train_cache := some (d.map (selectKeepCols st.cfg)) }) := by
  constructor <;> simp [make_initial_ds, prep_frame, Except.map]

/-- Explicit normal form of `fit`: it replaces the Series Cache by the
selected sub-table of the concatenated train+dev frame and installs the
model trained on the resampled dataset built from it. -/
theorem GluonTSMixer.fit_eq (st : MixerState) (td dd : List FullRow) :
    GluonTSMixer.fit st td dd =
      .ok { st with
            train_cache := some ((td ++ dd).map (selectKeepCols st.cfg)),
            model := some (DeepAREstimator_train st.cfg
              (finish_ds st.cfg ((td ++ dd).map (selectKeepCols st.cfg)))) } := by
  simp [GluonTSMixer.fit, make_initial_ds, prep_frame, Except.map]

/-- C2: `partial_fit(a, b)` (embedded as `update_fit`) succeeds exactly like
`fit(b, a)` and is observably equivalent to it followed by marking the mixer
prepared: both produce the same trained model and the same Series Cache, and
afterwards the `prepared` flag is `True`. -/
theorem update_fit_equiv_swapped_fit (st : MixerState) (a b : List FullRow) :
    ∃ s₁ s₂, GluonTSMixer.update_fit st a b = .ok s₁
  ∧ GluonTSMixer.fit st b a = .ok s₂
  ∧ s₁.model = s₂.model
  ∧ s₁.train_cache = s₂.train_cache
  ∧ s₁.prepared = true := by
  refine ⟨{ st with
      hyperparam_search := some false,
      prepared := true,
      train_cache := some ((b ++ a).map (selectKeepCols st.cfg)),
      model := some (DeepAREstimator_train st.cfg
        (finish_ds st.cfg ((b ++ a).map (selectKeepCols st.cfg)))) },
    _, ?_, GluonTSMixer.fit_eq st b a, rfl, rfl, rfl⟩
  simp [GluonTSMixer.update_fit, GluonTSMixer.fit_eq]

/-- Inversion of a successful `make_initial_ds`: the branch part succeeded
on some frame and the dataset is `finish_ds` of that frame. -/
theorem make_initial_ds_ok {st : MixerState} {df : Option (List FullRow)}
    {train : Bool} {groups : Option (List String)} {ds : PandasDatasetM}
    {st' : MixerState}
    (h : make_initial_ds st df train groups = .ok (ds, st')) :
    ∃ frame, prep_frame st df train groups = .ok (frame, st')
      ∧ ds = finish_ds st.cfg frame := by
  unfold make_initial_ds at h
  cases hp : prep_frame st df train groups with
  | error e => rw [hp] at h; simp [Except.map] at h
  | ok fs =>
    rw [hp] at h
    simp only [Except.map, Except.ok.injEq, Prod.mk.injEq] at h
    exact ⟨fs.1, by rw [← h.2], h.1.symm⟩

/-- C4: every dataset produced by the Dataset Builder carries exactly one
group-identifier column; when no group-by column is configured the constant
column `'__default_group'` is synthesized as the item-id and every resampled
row carries that constant group value; the grouped and the ungrouped paths
both produce a three-column long frame (order-by sums, target, group-id)
with the configured target and frequency metadata, i.e. the same schema
shape.  The disequality hypotheses say the configured column names do not
collide. -/
theorem dataset_single_group_col_schema (st : MixerState)
    (df : Option (List FullRow)) (train : Bool) (groups : Option (List String))
    (ds : PandasDatasetM) (st' : MixerState)
    (h : make_initial_ds st df train groups = .ok (ds, st'))
    (hg : ∀ g ∈ st.cfg.tss.group_by, g ≠ obyCol st.cfg ∧ g ≠ st.cfg.target)
    (ht : st.cfg.target ≠ obyCol st.cfg)
    (ht2 : st.cfg.target ≠ "__default_group")
    (ho : obyCol st.cfg ≠ "__default_group") :
    ds.columns.count ds.item_id = 1
  ∧ ds.columns.length = 3
  ∧ ds.target ∈ ds.columns
  ∧ ds.item_id ∈ ds.columns
  ∧ obyCol st.cfg ∈ ds.columns
  ∧ ds.freq = st.cfg.freq
  ∧ ds.target = st.cfg.target
  ∧ (st.cfg.tss.group_by = [] →
      ds.item_id = "__default_group" ∧ ∀ r ∈ ds.rows, r.1 = "__default_group") := by
  obtain ⟨frame, _, hds⟩ := make_initial_ds_ok h
  subst hds
  cases hgb : st.cfg.tss.group_by with
  | nil =>
    have hfin : finish_ds st.cfg frame =
        { columns := [obyCol st.cfg, st.cfg.target, "__default_group"],
          item_id := "__default_group", target := st.cfg.target,
          freq := st.cfg.freq,
          rows := (resampleSum st.cfg.freq (drop_duplicates frame)).map
            (fun bos => ("__default_group", bos.1, bos.2.1, bos.2.2)) } := by
      simp [finish_ds, hgb]
    rw [hfin]
    refine ⟨?_, rfl, ?_, ?_, ?_, rfl, rfl, fun _ => ⟨rfl, ?_⟩⟩
    · simp [List.count_cons, ht2, ho]
    · simp
    · simp
    · simp
    · rintro ⟨g, b, o, t⟩ hr
      simp only [List.mem_map] at hr
      obtain ⟨bos, _, hbos⟩ := hr
      exact (congrArg Prod.fst hbos).symm
  | cons g0 rest =>
    obtain ⟨h1, h2⟩ := hg g0 (by rw [hgb]; exact List.mem_cons_self g0 rest)
    have hfin : finish_ds st.cfg frame =
        { columns := [g0, obyCol st.cfg, st.cfg.target], item_id := g0,
          target := st.cfg.target, freq := st.cfg.freq,
          rows := resampleGrouped st.cfg.freq (drop_duplicates frame) } := by
      simp [finish_ds, hgb]
    rw [hfin]
    refine ⟨?_, rfl, ?_, ?_, ?_, rfl, rfl, ?_⟩
    · simp [List.count_cons, Ne.symm h1, Ne.symm h2]
    · simp
    · simp
    · simp
    · intro hnil
      simp at hnil

/-- C5: on an inference call (`train=False`) with `df=None` the Dataset
Builder's working frame is the cached table, filtered by membership of the
first group-by column in the requested groups when grouping is configured
and taken whole otherwise; with a non-null `df` it is the (group-filtered)
cache concatenated with the selected-column sub-table of `df` and sorted by
the original row index; the state is left unchanged, and `sort_index`
really sorts by the frame index. -/
theorem inference_frame_build (st : MixerState) (c : List Row)
    (hc : st.train_cache = some c) :
    (∀ g0 rest gs, st.cfg.tss.group_by = g0 :: rest →
       prep_frame st none false (some gs) = .ok (c.filter (grpIn gs), st))
  ∧ (st.cfg.tss.group_by = [] → ∀ groups,
       prep_frame st none false groups = .ok (c, st))
  ∧ (∀ g0 rest gs d, st.cfg.tss.group_by = g0 :: rest →
       prep_frame st (some d) false (some gs) =
         .ok (sort_index (c.filter (grpIn gs) ++ d.map (selectKeepCols st.cfg)), st))
  ∧ (st.cfg.tss.group_by = [] → ∀ d groups,
       prep_frame st (some d) false groups =
         .ok (sort_index (c ++ d.map (selectKeepCols st.cfg)), st))
  ∧ (∀ l : List Row, (sort_index l).Pairwise idxLe ∧ (sort_index l).Perm l) := by
  refine ⟨?_, ?_, ?_, ?_, fun l => ⟨sort_index_sorted l, sort_index_perm l⟩⟩
  · intro g0 rest gs hgb
    simp [prep_frame, hc, hgb]
  · intro hgb groups
    simp [prep_frame, hc, hgb]
  · intro g0 rest gs d hgb
    simp [prep_frame, hc, hgb]
  · intro hgb d groups
    simp [prep_frame, hc, hgb]

theorem dataset_single_group_col_schema_witness :
    ((finish_ds cfgG (List.map (selectKeepCols cfgG) [rW])).columns.count
        (finish_ds cfgG (List.map (selectKeepCols cfgG) [rW])).item_id = 1
      ∧ (finish_ds cfgG (List.map (selectKeepCols cfgG) [rW])).columns.length = 3)
  ∧ ((finish_ds cfgU (List.map (selectKeepCols cfgU) [rW])).columns.count
        (finish_ds cfgU (List.map (selectKeepCols cfgU) [rW])).item_id = 1
      ∧ (finish_ds cfgU (List.map (selectKeepCols cfgU) [rW])).item_id =
          "__default_group") := by
  have hG := dataset_single_group_col_schema stG (some [rW]) true none
    (finish_ds cfgG (List.map (selectKeepCols cfgG) [rW]))
    { stG with train_cache := some (List.map (selectKeepCols cfgG) [rW]) }
    (by rfl) (by decide) (by decide) (by decide) (by decide)
  have hU := dataset_single_group_col_schema stU (some [rW]) true none
    (finish_ds cfgU (List.map (selectKeepCols cfgU) [rW]))
    { stU with train_cache := some (List.map (selectKeepCols cfgU) [rW]) }
    (by rfl) (by decide) (by decide) (by decide) (by decide)
  exact ⟨⟨hG.1, hG.2.1⟩, ⟨hU.1, (hU.2.2.2.2.2.2.2 rfl).1⟩⟩

theorem inference_frame_build_witness :
    (prep_frame stG none false (some ["g"]) =
        .ok (List.filter (grpIn ["g"]) [], stG))
  ∧ (prep_frame stG (some [rW]) false (some ["g"]) =
        .ok (sort_index (List.filter (grpIn ["g"]) [] ++
          List.map (selectKeepCols stG.cfg) [rW]), stG))
  ∧ (prep_frame stU none false none = .ok ([], stU))
  ∧ (prep_frame stU (some [rW]) false none =
        .ok (sort_index ([] ++ List.map (selectKeepCols stU.cfg) [rW]), stU)) := by
  have hG := inference_frame_build stG [] rfl
  have hU := inference_frame_build stU [] rfl
  exact ⟨hG.1 "g" [] ["g"] rfl, hG.2.2.1 "g" [] ["g"] [rW] rfl,
    hU.2.1 rfl none, hU.2.2.2.1 rfl [rW] none⟩

/-- Inversion of a successful `mapE`: the output has the input's length and
every output element is the successful image of the input element at the
same position. -/
theorem mapE_ok {α β : Type} {f : α → Except MkErr β} :
    ∀ {l : List α} {ys : List β}, mapE f l = .ok ys →
      ys.length = l.length ∧
        ∀ i (hi : i < l.length) (hi2 : i < ys.length),
          f (l.get ⟨i, hi⟩) = .ok (ys.get ⟨i, hi2⟩) := by
  intro l
  induction l with
  | nil =>
    intro ys h
    simp only [mapE, Except.ok.injEq] at h
    subst h
    exact ⟨rfl, fun i hi => absurd hi (by simp)⟩
  | cons a as ih =>
    intro ys h
    simp only [mapE] at h
    cases hfa : f a with
    | error e => rw [hfa] at h; simp at h
    | ok b =>
      rw [hfa] at h
      cases hmas : mapE f as with
      | error e => rw [hmas] at h; simp at h
      | ok bs =>
        rw [hmas] at h
        simp only [Except.ok.injEq] at h
        subst h
        obtain ⟨hlen, hget⟩ := ih hmas
        refine ⟨by simp [hlen], ?_⟩
        intro i hi hi2
        cases i with
        | zero => simpa using hfa
        | succ n =>
          have hn : n < as.length := by simpa using hi
          have hn2 : n < bs.length := by simpa using hi2
          simpa using hget n hn hn2

/-- C7: whenever `__call__` succeeds, it produced one output row per input
row, and the row at every position holds the model's mean forecast as the
point prediction, the quantile at `1 - confidence` as the lower bound, the
quantile at `confidence` as the upper bound, the original frame index of the
input row, and the confidence level actually used — which is the default
`0.9` whenever the caller supplied no fixed confidence. -/
theorem call_quantile_extraction (predict : ModelM → PandasDatasetM → Forecast)
    (st : MixerState) (rows : List FullRow) (args : PredictionArguments)
    (ys : List OutRow)
    (h : GluonTSMixer.call predict st rows args = .ok ys) :
    ys.length = rows.length
  ∧ (args.fixed_confidence = none → confOf args.fixed_confidence = 0.9)
  ∧ ∀ i (hi : i < rows.length) (hi2 : i < ys.length), ∃ m dsSt,
      st.model = some m
    ∧ make_initial_ds st (histAt rows i) false (groupsOf st rows) = .ok dsSt
    ∧ ys.get ⟨i, hi2⟩ =
        { prediction := (predict m dsSt.1).mean
          lower := (predict m dsSt.1).quantile (1 - confOf args.fixed_confidence)
          upper := (predict m dsSt.1).quantile (confOf args.fixed_confidence)
          index := (rows.get ⟨i, hi⟩).idx
          confidence := confOf args.fixed_confidence } := by
  unfold GluonTSMixer.call at h
  obtain ⟨hlen, hget⟩ := mapE_ok h
  have hlen' : ys.length = rows.length := by simpa using hlen
  refine ⟨hlen', fun hn => by simp [hn, confOf, pyTruthy], ?_⟩
  intro i hi hi2
  have hie : i < rows.enum.length := by simpa using hi
  have hrow := hget i hie hi2
  rw [List.get_enum] at hrow
  unfold forecastRow at hrow
  cases hmk : make_initial_ds st (histAt rows i) false (groupsOf st rows) with
  | error e => rw [hmk] at hrow; simp at hrow
  | ok dsSt =>
    rw [hmk] at hrow
    cases hm : st.model with
    | none => rw [hm] at hrow; simp at hrow
    | some m =>
      rw [hm] at hrow
      simp only [Except.ok.injEq] at hrow
      exact ⟨m, dsSt, rfl, rfl, hrow.symm⟩

/-- C8: in the prediction loop the provisional history passed to the Dataset
Builder at position `idx` is exactly the sub-table of the input rows
strictly before `idx` (`None` at `idx = 0`), and the dataset built for
`idx = 0` is computed from the cached training data and the requested
groups alone — it is the same whatever the input rows are. -/
theorem call_history_prefix (st : MixerState) (rows : List FullRow)
    (groups : Option (List String)) :
    histAt rows 0 = none
  ∧ (∀ idx, idx ≠ 0 → histAt rows idx = some (rows.take idx))
  ∧ (∀ idx j, j < idx → (rows.take idx)[j]? = rows[j]?)
  ∧ (∀ rows2 : List FullRow,
      make_initial_ds st (histAt rows 0) false groups =
        make_initial_ds st (histAt rows2 0) false groups) := by
  refine ⟨rfl, ?_, ?_, fun rows2 => rfl⟩
  · intro idx hidx
    simp [histAt, hidx]
  · intro idx j hj
    exact List.getElem?_take_of_lt hj

theorem call_quantile_extraction_witness :
    ∃ ys, GluonTSMixer.call predW stW7 [rW] { fixed_confidence := none } = .ok ys
      ∧ ys.length = [rW].length := by
  refine ⟨_, rfl, ?_⟩
  exact (call_quantile_extraction predW stW7 [rW]
    { fixed_confidence := none } _ rfl).1

theorem call_history_prefix_witness :
    histAt [rW] 0 = none
  ∧ histAt [rW] 1 = some (List.take 1 [rW])
  ∧ (List.take 1 [rW])[0]? = [rW][0]?
  ∧ make_initial_ds stU (histAt [rW] 0) false none =
      make_initial_ds stU (histAt [] 0) false none := by
  have h := call_history_prefix stU [rW] none
  exact ⟨h.1, h.2.1 1 (by decide), h.2.2.1 1 0 (by decide), h.2.2.2 []⟩

theorem map_dedupBy {α β : Type} [DecidableEq β] (f : α → β) :
    ∀ (seen : List β) (l : List α),
      (dedupBy f seen l).map f = dedupBy id seen (l.map f) := by
  intro seen l
  induction l generalizing seen with
  | nil => rfl
  | cons a as ih =>
    simp only [dedupBy, List.map_cons, id]
    by_cases h : f a ∈ seen
    · simp only [if_pos h]
      exact ih seen
    · simp only [if_neg h, List.map_cons]
      rw [ih (f a :: seen)]

theorem mem_dedupBy_id {α : Type} [DecidableEq α] :
    ∀ (seen : List α) (l : List α) (x : α),
      x ∈ dedupBy id seen l ↔ x ∈ l ∧ x ∉ seen := by
  intro seen l
  induction l generalizing seen with
  | nil => simp [dedupBy]
  | cons a as ih =>
    intro x
    simp only [dedupBy, id]
    by_cases h : a ∈ seen
    · rw [if_pos h, ih seen x]
      constructor
      · exact fun hx => ⟨List.mem_cons_of_mem a hx.1, hx.2⟩
      · rintro ⟨hx, hs⟩
        rcases List.mem_cons.mp hx with rfl | hx
        · exact absurd h hs
        · exact ⟨hx, hs⟩
    · rw [if_neg h]
      constructor
      · intro hx
        rcases List.mem_cons.mp hx with rfl | hx
        · exact ⟨List.mem_cons_self _ _, h⟩
        · rcases (ih (a :: seen) x).mp hx with ⟨hmem, hns⟩
          exact ⟨List.mem_cons_of_mem a hmem,
            fun hs => hns (List.mem_cons_of_mem a hs)⟩
      · rintro ⟨hx, hs⟩
        rcases List.mem_cons.mp hx with rfl | hx
        · exact List.mem_cons_self x _
        · by_cases hxa : x = a
          · subst hxa; exact List.mem_cons_self x _
          · exact List.mem_cons_of_mem a
              ((ih (a :: seen) x).mpr
                ⟨hx, fun hmem => (List.mem_cons.mp hmem).elim hxa hs⟩)

theorem dedupBy_key_spec {α β : Type} [DecidableEq β] (key : α → β) :
    ∀ (seen : List β) (l : List α),
      (∀ a ∈ dedupBy key seen l, key a ∉ seen) ∧
        (dedupBy key seen l).Pairwise (fun a b => key a ≠ key b) := by
  intro seen l
  induction l generalizing seen with
  | nil => simp [dedupBy]
  | cons a as ih =>
    simp only [dedupBy]
    by_cases h : key a ∈ seen
    · rw [if_pos h]; exact ih seen
    · rw [if_neg h]
      obtain ⟨ihmem, ihpw⟩ := ih (key a :: seen)
      constructor
      · intro b hb
        rcases List.mem_cons.mp hb with rfl | hb
        · exact h
        · exact fun hs => ihmem b hb (List.mem_cons_of_mem _ hs)
      · refine List.pairwise_cons.mpr ⟨?_, ihpw⟩
        intro b hb hab
        exact ihmem b hb (hab ▸ List.mem_cons_self (key a) seen)

theorem dedupBy_vals_absorb :
    ∀ (seenV : List (Int × Int × Option String)) (seenR : List Row)
      (l : List Row), (∀ r ∈ seenR, rowVals r ∈ seenV) →
      dedupBy rowVals seenV (dedupBy id seenR l) = dedupBy rowVals seenV l := by
  intro seenV seenR l
  induction l generalizing seenV seenR with
  | nil => intro _; rfl
  | cons r rs ih =>
    intro hsub
    simp only [dedupBy, id]
    by_cases hr : r ∈ seenR
    · rw [if_pos hr, if_pos (hsub r hr)]
      exact ih seenV seenR hsub
    · rw [if_neg hr]
      by_cases hv : rowVals r ∈ seenV
      · simp only [dedupBy, if_pos hv]
        refine ih seenV (r :: seenR) ?_
        intro x hx
        rcases List.mem_cons.mp hx with rfl | hx
        · exact hv
        · exact hsub x hx
      · simp only [dedupBy, if_neg hv]
        congr 1
        refine ih (rowVals r :: seenV) (r :: seenR) ?_
        intro x hx
        rcases List.mem_cons.mp hx with rfl | hx
        · exact List.mem_cons_self _ _
        · exact List.mem_cons_of_mem _ (hsub x hx)

theorem drop_duplicates_dedupBy_id (l : List Row) :
    drop_duplicates (dedupBy id [] l) = drop_duplicates l :=
  dedupBy_vals_absorb [] [] l (by simp)

theorem finish_ds_dedupBy_id (cfg : Config) (l : List Row) :
    finish_ds cfg (dedupBy id [] l) = finish_ds cfg l := by
  unfold finish_ds
  rw [drop_duplicates_dedupBy_id]

theorem Row.eq_of_idx_vals {x y : Row} (h1 : x.idx = y.idx)
    (h2 : rowVals x = rowVals y) : x = y := by
  cases x; cases y
  simp only [rowVals, Prod.mk.injEq] at h2
  simp_all

/-- Membership in the deduplicated form of an index-sorted frame: exactly
the rows of the frame that have the smallest index within their column-value
class (and whose values have not been seen yet). -/
theorem mem_dedup_sorted :
    ∀ (seen : List (Int × Int × Option String)) (m : List Row),
      m.Pairwise idxLe → ∀ x,
      (x ∈ dedupBy rowVals seen m ↔
        x ∈ m ∧ rowVals x ∉ seen ∧
          ∀ y ∈ m, rowVals y = rowVals x → x.idx ≤ y.idx) := by
  intro seen m
  induction m generalizing seen with
  | nil => simp [dedupBy]
  | cons r rs ih =>
    intro hsorted x
    obtain ⟨hr, hs⟩ := List.pairwise_cons.mp hsorted
    simp only [dedupBy]
    by_cases hv : rowVals r ∈ seen
    · rw [if_pos hv, ih seen hs x]
      constructor
      · rintro ⟨hx, hns, hmin⟩
        refine ⟨List.mem_cons_of_mem r hx, hns, ?_⟩
        intro y hy hvy
        rcases List.mem_cons.mp hy with rfl | hy
        · exact absurd (hvy ▸ hv) hns
        · exact hmin y hy hvy
      · rintro ⟨hx, hns, hmin⟩
        rcases List.mem_cons.mp hx with rfl | hx
        · exact absurd hv hns
        · exact ⟨hx, hns, fun y hy hvy => hmin y (List.mem_cons_of_mem r hy) hvy⟩
    · rw [if_neg hv]
      constructor
      · intro hx
        rcases List.mem_cons.mp hx with rfl | hx
        · refine ⟨List.mem_cons_self x rs, hv, ?_⟩
          intro y hy hvy
          rcases List.mem_cons.mp hy with rfl | hy
          · exact le_refl _
          · exact hr y hy
        · obtain ⟨hmem, hns, hmin⟩ := (ih (rowVals r :: seen) hs x).mp hx
          have hvr : rowVals x ≠ rowVals r :=
            fun hvv => hns (hvv ▸ List.mem_cons_self (rowVals r) seen)
          refine ⟨List.mem_cons_of_mem r hmem,
            fun hsx => hns (List.mem_cons_of_mem _ hsx), ?_⟩
          intro y hy hvy
          rcases List.mem_cons.mp hy with rfl | hy
          · exact absurd hvy (fun hvv => hvr hvv.symm)
          · exact hmin y hy hvy
      · rintro ⟨hx, hns, hmin⟩
        rcases List.mem_cons.mp hx with rfl | hx
        · exact List.mem_cons_self x _
        · by_cases hvr : rowVals r = rowVals x
          · have hle : x.idx ≤ r.idx := hmin r (List.mem_cons_self r rs) hvr
            have hge : r.idx ≤ x.idx := hr x hx
            have : x = r := Row.eq_of_idx_vals (le_antisymm hle hge) hvr.symm
            rw [this]
            exact List.mem_cons_self r _
          · refine List.mem_cons_of_mem r ((ih (rowVals r :: seen) hs x).mpr
              ⟨hx, ?_, fun y hy hvy => hmin y (List.mem_cons_of_mem r hy) hvy⟩)
            intro hmem
            rcases List.mem_cons.mp hmem with hvv | hmem
            · exact hvr hvv.symm
            · exact hns hmem

theorem drop_duplicates_nodup (l : List Row) : (drop_duplicates l).Nodup := by
  have h := (dedupBy_key_spec rowVals [] l).2
  exact h.imp (fun hk => fun hab => hk (by rw [hab]))

/-- Deduplicating after index-sorting depends only on the membership of the
input frame: two frames with the same rows deduplicate (after sorting) to
permutations of each other. -/
theorem drop_duplicates_sort_perm {l1 l2 : List Row}
    (hmem : ∀ x, x ∈ l1 ↔ x ∈ l2) :
    (drop_duplicates (sort_index l1)).Perm (drop_duplicates (sort_index l2)) := by
  refine (List.perm_ext_iff_of_nodup (drop_duplicates_nodup _)
    (drop_duplicates_nodup _)).mpr ?_
  intro x
  rw [show drop_duplicates (sort_index l1) = dedupBy rowVals [] (sort_index l1) from rfl,
    mem_dedup_sorted [] (sort_index l1) (sort_index_sorted l1) x,
    show drop_duplicates (sort_index l2) = dedupBy rowVals [] (sort_index l2) from rfl,
    mem_dedup_sorted [] (sort_index l2) (sort_index_sorted l2) x]
  constructor
  · rintro ⟨hx, -, hmin⟩
    refine ⟨mem_sort_index.mpr ((hmem x).mp (mem_sort_index.mp hx)), by simp, ?_⟩
    intro y hy hvy
    exact hmin y (mem_sort_index.mpr ((hmem y).mpr (mem_sort_index.mp hy))) hvy
  · rintro ⟨hx, -, hmin⟩
    refine ⟨mem_sort_index.mpr ((hmem x).mpr (mem_sort_index.mp hx)), by simp, ?_⟩
    intro y hy hvy
    exact hmin y (mem_sort_index.mpr ((hmem y).mp (mem_sort_index.mp hy))) hvy

theorem natMin?_spec : ∀ {l : List Nat} {m : Nat},
    natMin? l = some m → m ∈ l ∧ ∀ x ∈ l, m ≤ x := by
  intro l
  induction l with
  | nil => intro m h; simp [natMin?] at h
  | cons a as ih =>
    intro m h
    simp only [natMin?] at h
    cases has : natMin? as with
    | none =>
      rw [has] at h
      have hnil : as = [] := by
        cases as with
        | nil => rfl
        | cons b bs => simp [natMin?] at has
      subst hnil
      simp only [Option.some.injEq] at h
      subst h
      simp
    | some m2 =>
      rw [has] at h
      simp only [Option.some.injEq] at h
      obtain ⟨hm2, hle⟩ := ih has
      subst h
      constructor
      · rcases min_choice a m2 with hmin | hmin <;> rw [hmin]
        · exact List.mem_cons_self _ _
        · exact List.mem_cons_of_mem a hm2
      · intro x hx
        rcases List.mem_cons.mp hx with rfl | hx
        · exact min_le_left _ _
        · exact le_trans (min_le_right a m2) (hle x hx)

theorem natMax?_spec : ∀ {l : List Nat} {m : Nat},
    natMax? l = some m → m ∈ l ∧ ∀ x ∈ l, x ≤ m := by
  intro l
  induction l with
  | nil => intro m h; simp [natMax?] at h
  | cons a as ih =>
    intro m h
    simp only [natMax?] at h
    cases has : natMax? as with
    | none =>
      rw [has] at h
      have hnil : as = [] := by
        cases as with
        | nil => rfl
        | cons b bs => simp [natMax?] at has
      subst hnil
      simp only [Option.some.injEq] at h
      subst h
      simp
    | some m2 =>
      rw [has] at h
      simp only [Option.some.injEq] at h
      obtain ⟨hm2, hle⟩ := ih has
      subst h
      constructor
      · rcases max_choice a m2 with hmax | hmax <;> rw [hmax]
        · exact List.mem_cons_self _ _
        · exact List.mem_cons_of_mem a hm2
      · intro x hx
        rcases List.mem_cons.mp hx with rfl | hx
        · exact le_max_left _ _
        · exact le_trans (hle x hx) (le_max_right a m2)

theorem natMin?_eq_none {l : List Nat} : natMin? l = none ↔ l = [] := by
  cases l <;> simp [natMin?]

theorem natMax?_eq_none {l : List Nat} : natMax? l = none ↔ l = [] := by
  cases l <;> simp [natMax?]

theorem natMin?_perm {l1 l2 : List Nat} (h : l1.Perm l2) :
    natMin? l1 = natMin? l2 := by
  cases h1 : natMin? l1 with
  | none =>
    have hl1 : l1 = [] := natMin?_eq_none.mp h1
    subst hl1
    have hl2 : l2 = [] := List.length_eq_zero.mp h.length_eq.symm
    subst hl2
    rfl
  | some m1 =>
    cases h2 : natMin? l2 with
    | none =>
      have hl2 : l2 = [] := natMin?_eq_none.mp h2
      subst hl2
      have hl1 : l1 = [] := List.length_eq_zero.mp h.length_eq
      subst hl1
      simp [natMin?] at h1
    | some m2 =>
      obtain ⟨hm1, hle1⟩ := natMin?_spec h1
      obtain ⟨hm2, hle2⟩ := natMin?_spec h2
      exact congrArg some (le_antisymm (hle1 m2 (h.mem_iff.mpr hm2))
        (hle2 m1 (h.mem_iff.mp hm1)))

theorem natMax?_perm {l1 l2 : List Nat} (h : l1.Perm l2) :
    natMax? l1 = natMax? l2 := by
  cases h1 : natMax? l1 with
  | none =>
    have hl1 : l1 = [] := natMax?_eq_none.mp h1
    subst hl1
    have hl2 : l2 = [] := List.length_eq_zero.mp h.length_eq.symm
    subst hl2
    rfl
  | some m1 =>
    cases h2 : natMax? l2 with
    | none =>
      have hl2 : l2 = [] := natMax?_eq_none.mp h2
      subst hl2
      have hl1 : l1 = [] := List.length_eq_zero.mp h.length_eq
      subst hl1
      simp [natMax?] at h1
    | some m2 =>
      obtain ⟨hm1, hle1⟩ := natMax?_spec h1
      obtain ⟨hm2, hle2⟩ := natMax?_spec h2
      exact congrArg some (le_antisymm (hle2 m1 (h.mem_iff.mp hm1))
        (hle1 m2 (h.mem_iff.mpr hm2)))

theorem bucketList_perm (freq : Nat) {l1 l2 : List Row} (h : l1.Perm l2) :
    bucketList freq l1 = bucketList freq l2 := by
  unfold bucketList
  rw [natMin?_perm (h.map Row.idx), natMax?_perm (h.map Row.idx)]

theorem obySumAt_perm (freq b : Nat) {l1 l2 : List Row} (h : l1.Perm l2) :
    obySumAt freq b l1 = obySumAt freq b l2 :=
  ((h.filter _).map Row.oby).sum_eq

theorem tgtSumAt_perm (freq b : Nat) {l1 l2 : List Row} (h : l1.Perm l2) :
    tgtSumAt freq b l1 = tgtSumAt freq b l2 :=
  ((h.filter _).map Row.tgt).sum_eq

theorem resampleSum_perm (freq : Nat) {l1 l2 : List Row} (h : l1.Perm l2) :
    resampleSum freq l1 = resampleSum freq l2 := by
  unfold resampleSum
  rw [bucketList_perm freq h]
  exact List.map_congr_left fun b _ => by
    rw [obySumAt_perm freq b h, tgtSumAt_perm freq b h]

theorem insertStr_perm (s : String) (l : List String) :
    (insertStr s l).Perm (s :: l) := by
  induction l with
  | nil => simp [insertStr]
  | cons x xs ih =>
    by_cases h : s ≤ x
    · simp [insertStr, h]
    · simp only [insertStr, if_neg h]
      exact (ih.cons x).trans (List.Perm.swap s x xs)

theorem sortStrs_perm (l : List String) : (sortStrs l).Perm l := by
  induction l with
  | nil => simp [sortStrs]
  | cons x xs ih => exact (insertStr_perm x (sortStrs xs)).trans (ih.cons x)

theorem insertStr_sorted {s : String} {l : List String}
    (h : l.Pairwise (· ≤ ·)) : (insertStr s l).Pairwise (· ≤ ·) := by
  induction l with
  | nil => simp [insertStr]
  | cons x xs ih =>
    rcases List.pairwise_cons.mp h with ⟨hx, hxs⟩
    by_cases hs : s ≤ x
    · simp only [insertStr, if_pos hs]
      refine List.pairwise_cons.mpr ⟨?_, h⟩
      intro y hy
      rcases List.mem_cons.mp hy with rfl | hy
      · exact hs
      · exact le_trans hs (hx y hy)
    · simp only [insertStr, if_neg hs]
      refine List.pairwise_cons.mpr ⟨?_, ih hxs⟩
      intro y hy
      rw [(insertStr_perm s xs).mem_iff] at hy
      rcases List.mem_cons.mp hy with rfl | hy
      · exact le_of_not_le hs
      · exact hx y hy

theorem sortStrs_sorted (l : List String) : (sortStrs l).Pairwise (· ≤ ·) := by
  induction l with
  | nil => simp [sortStrs]
  | cons x xs ih => exact insertStr_sorted ih

theorem groupVals_perm {l1 l2 : List Row} (h : l1.Perm l2) :
    groupVals l1 = groupVals l2 := by
  unfold groupVals
  have hu : (dedupBy id [] (l1.filterMap Row.grp)).Perm
      (dedupBy id [] (l2.filterMap Row.grp)) := by
    have hnd1 : (dedupBy id [] (l1.filterMap Row.grp)).Nodup :=
      ((dedupBy_key_spec (id : String → String) []
        (l1.filterMap Row.grp)).2).imp (fun hk => by simpa using hk)
    have hnd2 : (dedupBy id [] (l2.filterMap Row.grp)).Nodup :=
      ((dedupBy_key_spec (id : String → String) []
        (l2.filterMap Row.grp)).2).imp (fun hk => by simpa using hk)
    refine (List.perm_ext_iff_of_nodup hnd1 hnd2).mpr ?_
    intro g
    rw [mem_dedupBy_id, mem_dedupBy_id]
    simp [(h.filterMap Row.grp).mem_iff]
  exact List.eq_of_perm_of_sorted
    ((sortStrs_perm _).trans (hu.trans (sortStrs_perm _).symm))
    (sortStrs_sorted _) (sortStrs_sorted _)

theorem resampleGrouped_perm (freq : Nat) {l1 l2 : List Row} (h : l1.Perm l2) :
    resampleGrouped freq l1 = resampleGrouped freq l2 := by
  unfold resampleGrouped
  rw [groupVals_perm h]
  congr 1
  funext g
  rw [resampleSum_perm freq (h.filter (fun r => r.grp == some g))]

/-- Two working frames with the same rows produce the same resampled dataset
after index-sorting: `finish_ds` only depends on the membership of the
sorted frame. -/
theorem finish_ds_eq_of_mem (cfg : Config) {l1 l2 : List Row}
    (hmem : ∀ x, x ∈ l1 ↔ x ∈ l2) :
    finish_ds cfg (sort_index l1) = finish_ds cfg (sort_index l2) := by
  have hperm := drop_duplicates_sort_perm hmem
  unfold finish_ds
  cases cfg.tss.group_by with
  | nil =>
    dsimp only
    rw [resampleSum_perm cfg.freq hperm]
  | cons g0 rest =>
    dsimp only
    rw [resampleGrouped_perm cfg.freq hperm]

theorem mem_append_dedup (cf s : List Row) (x : Row) :
    x ∈ cf ++ s ↔ x ∈ cf ++ dedupBy id [] s := by
  simp [List.mem_append, mem_dedupBy_id]

/-- C3 (amended): the Dataset Builder is idempotent on duplicate rows that
agree on the dataframe index as well as on the (order-by, target, group)
columns: feeding a table containing such exact duplicates yields the same
grouped, resampled output dataset as feeding the table with those duplicates
removed, on the training path and on both inference paths alike.  (For
duplicates that agree only on the column values but sit at different frame
indices the property fails, see the counterexample: `drop_duplicates`
ignores the index while resampling buckets by it.) -/
theorem make_ds_dedup_idempotent (st : MixerState) (d : List FullRow)
    (train : Bool) (groups : Option (List String)) :
    (make_initial_ds st (some d) train groups).map Prod.fst =
      (make_initial_ds st (some (dedup_rows st.cfg d)) train groups).map Prod.fst := by
  have hsub : (dedup_rows st.cfg d).map (selectKeepCols st.cfg) =
      dedupBy id [] (d.map (selectKeepCols st.cfg)) :=
    map_dedupBy (selectKeepCols st.cfg) [] d
  cases train with
  | true =>
    have h1 : prep_frame st (some d) true groups =
        .ok (d.map (selectKeepCols st.cfg),
          { st with train_cache := some (d.map (selectKeepCols st.cfg)) }) := by
      simp [prep_frame]
    have h2 : prep_frame st (some (dedup_rows st.cfg d)) true groups =
        .ok ((dedup_rows st.cfg d).map (selectKeepCols st.cfg),
          { st with train_cache := some ((dedup_rows st.cfg d).map (selectKeepCols st.cfg)) }) := by
      simp [prep_frame]
    simp only [make_initial_ds, h1, h2, Except.map]
    rw [hsub, finish_ds_dedupBy_id]
  | false =>
    cases hc : st.train_cache with
    | none =>
      have h1 : prep_frame st (some d) false groups = .error .noneCache := by
        simp [prep_frame, hc]
      have h2 : prep_frame st (some (dedup_rows st.cfg d)) false groups =
          .error .noneCache := by
        simp [prep_frame, hc]
      simp [make_initial_ds, h1, h2, Except.map]
    | some c =>
      cases hg : st.cfg.tss.group_by with
      | nil =>
        have h1 : prep_frame st (some d) false groups =
            .ok (sort_index (c ++ d.map (selectKeepCols st.cfg)), st) := by
          simp [prep_frame, hc, hg]
        have h2 : prep_frame st (some (dedup_rows st.cfg d)) false groups =
            .ok (sort_index (c ++
              (dedup_rows st.cfg d).map (selectKeepCols st.cfg)), st) := by
          simp [prep_frame, hc, hg]
        simp only [make_initial_ds, h1, h2, Except.map]
        rw [hsub]
        exact congrArg Except.ok
          (finish_ds_eq_of_mem st.cfg (fun x => mem_append_dedup c _ x))
      | cons g0 rest =>
        cases groups with
        | none =>
          have h1 : prep_frame st (some d) false none = .error .groupsNone := by
            simp [prep_frame, hc, hg]
          have h2 : prep_frame st (some (dedup_rows st.cfg d)) false none =
              .error .groupsNone := by
            simp [prep_frame, hc, hg]
          simp [make_initial_ds, h1, h2, Except.map]
        | some gs =>
          have h1 : prep_frame st (some d) false (some gs) =
              .ok (sort_index (c.filter (grpIn gs) ++
                d.map (selectKeepCols st.cfg)), st) := by
            simp [prep_frame, hc, hg]
          have h2 : prep_frame st (some (dedup_rows st.cfg d)) false (some gs) =
              .ok (sort_index (c.filter (grpIn gs) ++
                (dedup_rows st.cfg d).map (selectKeepCols st.cfg)), st) := by
            simp [prep_frame, hc, hg]
          simp only [make_initial_ds, h1, h2, Except.map]
          rw [hsub]
          exact congrArg Except.ok
            (finish_ds_eq_of_mem st.cfg
              (fun x => mem_append_dedup (c.filter (grpIn gs)) _ x))

/-- C3 counterexample: `rowC3b` is an exact duplicate of `rowC3a` on the
(order-by, target, group) columns, so the claim's deduplicated table of
`[rowC3a, rowC3b]` is `[rowC3a]`; yet the Dataset Builder resamples the
two tables to different output datasets (the duplicate sits at a different
frame index, `drop_duplicates` keeps the index-smallest sorted occurrence
and resampling buckets by the index: bucket 3 versus bucket 5), refuting
idempotence on duplicate rows as stated. -/
theorem dedup_idempotence_cex :
    rowVals (selectKeepCols stC3.cfg rowC3b) =
      rowVals (selectKeepCols stC3.cfg rowC3a)
  ∧ dedup_claim stC3.cfg [rowC3a, rowC3b] = [rowC3a]
  ∧ (make_initial_ds stC3 (some [rowC3a, rowC3b]) false none).map Prod.fst ≠
      (make_initial_ds stC3 (some [rowC3a]) false none).map Prod.fst := by
  refine ⟨by decide, by decide, by decide⟩

theorem falsy_confidence_default_witness :
    GluonTSMixer.call predW stW7 [rW] { fixed_confidence := some 0 } =
      GluonTSMixer.call predW stW7 [rW] { fixed_confidence := none }
  ∧ confOf (some 0) = 0.9 := by
  have h := falsy_confidence_default predW stW7 [rW]
  exact ⟨h.1, h.2.2.2 (some 0) (by decide)⟩

end Lightwood
